import Mathlib

/-!
# Verification of the listnr-tools markdown chunker

Shallow embedding of `src/main.rs`.  Strings are modelled as Lean `String`
(a wrapper around `List Char`); Rust byte lengths are modelled as character
counts, which agrees on the ASCII inputs used throughout.

Embedded components:
* `read_substitutions` / `read_substitutions_strict` — the CSV-table
  reader.  The default non-flexible `csv::Reader` consumes the first record
  as a header, surfaces any later record whose field count differs from the
  header's as an error (propagated fatally by the `?` in the fold), and
  delivers the rest; every delivered two-field record is inserted into a
  map, later keys overwriting earlier ones.  `read_substitutions_strict`
  models the whole function including the error path; `read_substitutions`
  is its success-path fold over the delivered records.
* `apply_substitutions` — a left fold of Rust `str::replace` over the rules
  in the table's iteration order (modelled as a list).
* `process_code_blocks` — the regex replacement of every lazily matched
  three-backtick-delimited span longer than 80 characters by a fixed
  placeholder.
* `chunk_markdown` — the fold that accumulates leaf payloads into chunks,
  with the external comrak walker modelled as the input `Leaf` list.
-/

/-- The backtick character (code 96), written numerically. -/
def btick : Char := Char.ofNat 96

/-- Does the list start with three backticks (the regex `\x60\x60\x60`)? -/
def isFence : List Char → Bool
  | a :: b :: c :: _ => a == btick && b == btick && c == btick
  | _ => false

/-- Index of the earliest position where a three-backtick run starts. -/
def findFence : List Char → Option Nat
  | [] => none
  | c :: rest => if isFence (c :: rest) then some 0 else (findFence rest).map (· + 1)

/-- The fixed placeholder from `process_code_blocks`. -/
def placeholder : String := "listing omitted; please see the original source"

/-- The replacement decision of `process_code_blocks` for one regex match. -/
def elide (m : List Char) : List Char :=
  if 80 < m.length then placeholder.data else m

/-- The scan performed by `Regex::replace_all` with pattern
three backticks, a lazy any-character run, three backticks:
at each position, the leftmost match starts at the first fence with a later
closing fence, the lazy run makes the match end at the earliest closing
fence, and scanning resumes after the match. -/
def pcb : List Char → List Char
  | [] => []
  | c :: rest =>
    if isFence (c :: rest) then
      match findFence (rest.drop 2) with
      | some j => elide ((c :: rest).take (j + 6)) ++ pcb ((c :: rest).drop (j + 6))
      | none => c :: pcb rest
    else c :: pcb rest
termination_by l => l.length
decreasing_by
  · simp; omega
  · simp
  · simp

/-- `process_code_blocks` from `src/main.rs`. -/
def process_code_blocks (content : String) : String :=
  String.mk (pcb content.data)

/-- Rust `str::replace` for a non-empty pattern `a :: f'`: replace the
leftmost occurrence, skip past it, and continue without rescanning the
replacement. -/
def goRep (a : Char) (f' t : List Char) : List Char → List Char
  | [] => []
  | c :: rest =>
    if (a :: f').isPrefixOf (c :: rest) then t ++ goRep a f' t (rest.drop f'.length)
    else c :: goRep a f' t rest
termination_by l => l.length
decreasing_by
  · simp; omega
  · simp

/-- Rust `str::replace from to`: for the empty pattern the matcher yields a
match at every character boundary, so `to` is inserted before, between and
after every character. -/
def replaceAll (f t s : List Char) : List Char :=
  match f with
  | [] => t ++ s.foldr (fun c acc => c :: (t ++ acc)) []
  | a :: f' => goRep a f' t s

/-- `apply_substitutions` from `src/main.rs`: fold `str::replace` over the
table's rules in iteration order (the `HashMap` iteration order is the order
of the list supplied here). -/
def apply_substitutions (content : String) (substitutions : List (String × String)) : String :=
  substitutions.foldl (fun acc r => String.mk (replaceAll r.1.data r.2.data acc.data)) content

/-- `HashMap::insert`: the new binding replaces any earlier binding of the
same key. -/
def insertPair (m : List (String × String)) (k v : String) : List (String × String) :=
  m.filter (fun p => p.1 != k) ++ [(k, v)]

/-- The success-path fold of `read_substitutions` from `src/main.rs` over
the records the `csv::Reader` delivers: the reader consumes the first
record as the header row, and every remaining delivered record with
exactly two fields is inserted into the map.  The full function, with the
reader's fatal error path for records whose field count differs from the
header's, is `read_substitutions_strict`; on a stream the reader accepts
the two agree. -/
def read_substitutions (rows : List (List String)) : List (String × String) :=
  (rows.drop 1).foldl
    (fun m r =>
      match r with
      | [a, b] => insertPair m a b
      | _ => m) []

/-- One record step of `read_substitutions` under the csv crate's default
non-flexible reader: a previous error is kept (`try_for_each`
short-circuits); a record whose field count differs from the header's is
the reader's UnequalLengths error, which `?` propagates; otherwise a
two-field record is inserted and any other record is skipped. -/
def readRecordStep (hdrLen : Nat) (acc : Option (List (String × String)))
    (r : List String) : Option (List (String × String)) :=
  match acc with
  | none => none
  | some m =>
      if r.length = hdrLen then
        match r with
        | [a, b] => some (insertPair m a b)
        | _ => some m
      else none

/-- `read_substitutions` from `src/main.rs` including the csv crate's
strict record stream: the first row is the header, every later row whose
field count differs from the header's surfaces as a `csv::Error` that the
function propagates, and `none` models that fatal result. -/
def read_substitutions_strict (rows : List (List String)) :
    Option (List (String × String)) :=
  match rows with
  | [] => some []
  | hdr :: rest => rest.foldl (readRecordStep hdr.length) (some [])

/-- The compiled chunk-size constant from `src/main.rs`. -/
def SECTION_CHAR_LIMIT : Nat := 1500

/-- One step of the fold in `chunk_markdown`: when the buffer plus the new
payload would exceed the limit, push the buffer (whatever it contains) and
start over from the payload; otherwise append the payload to the buffer. -/
def chunkStep (limit : Nat) (acc : List String × String) (text : String) :
    List String × String :=
  if limit < acc.2.length + text.length then (acc.1 ++ [acc.2], text)
  else (acc.1, acc.2 ++ text)

/-- The fold of `chunk_markdown` over the leaf payloads, returning the
emitted chunks together with the remaining buffer. -/
def chunkLeaves (limit : Nat) (texts : List String) : List String × String :=
  texts.foldl (chunkStep limit) ([], "")

/-- A text-bearing leaf produced by the comrak walker (`NodeValue::Text`,
`NodeValue::Code`, `NodeValue::CodeBlock`), in depth-first document order. -/
inductive Leaf where
  | text (s : String)
  | inlineCode (s : String)
  | codeBlock (s : String)
deriving DecidableEq

/-- The payload `chunk_markdown` extracts from a leaf: the literal for text
and inline code, and `process_code_blocks` of the literal for code blocks. -/
def leafPayload : Leaf → String
  | .text s => s
  | .inlineCode s => s
  | .codeBlock s => process_code_blocks s

/-- `chunk_markdown` from `src/main.rs`: fold the payloads and return only
the first component of the accumulator (`.0`), discarding the buffer. -/
def chunk_markdown (leaves : List Leaf) : List String :=
  (chunkLeaves SECTION_CHAR_LIMIT (leaves.map leafPayload)).1

/-- Lexicographic comparison of character lists by code point. -/
def lexLE : List Char → List Char → Bool
  | [], _ => true
  | _ :: _, [] => false
  | a :: as, b :: bs =>
    if a.toNat < b.toNat then true
    else if b.toNat < a.toNat then false
    else lexLE as bs

/-- Modelled from the spec (§4.1), which mandates behaviour the source does
not implement: the sort order for substitution rules, descending
`from`-length with ties broken lexicographically. -/
def ruleLE (r₁ r₂ : String × String) : Bool :=
  Nat.blt r₂.1.length r₁.1.length ||
    (r₁.1.length == r₂.1.length && lexLE r₁.1.data r₂.1.data)

/-- Modelled from the spec (§4.1): insertion into a list sorted by `ruleLE`. -/
def insertSorted (r : String × String) : List (String × String) → List (String × String)
  | [] => [r]
  | x :: xs => if ruleLE r x then r :: x :: xs else x :: insertSorted r xs

/-- Modelled from the spec (§4.1): sort the rules by `ruleLE`. -/
def sortRules (rs : List (String × String)) : List (String × String) :=
  rs.foldr insertSorted []

/-- Modelled from the spec (§4.1): a single left-to-right scan of the
original text that at each position applies the first (hence longest)
matching rule, emitting the replacement without rescanning it.  Empty
`from` keys are invalid per the spec and never match.  The fuel argument
only bounds the recursion; every match consumes at least one character, so
fuel equal to the text length is enough. -/
def multiScanAux (rules : List (List Char × List Char)) : Nat → List Char → List Char
  | _, [] => []
  | 0, l => l
  | fuel + 1, c :: rest =>
    match rules.find? (fun r => !r.1.isEmpty && r.1.isPrefixOf (c :: rest)) with
    | some r => r.2 ++ multiScanAux rules fuel ((c :: rest).drop r.1.length)
    | none => c :: multiScanAux rules fuel rest

/-- Modelled from the spec (§4.1): the deterministic multi-pattern,
single-pass, non-cascading replacement the spec requires of the
Substitution Applier. -/
def specMultiPatternReplace (table : List (String × String)) (content : String) : String :=
  String.mk
    (multiScanAux ((sortRules table).map (fun r => (r.1.data, r.2.data)))
      content.data.length content.data)

lemma isFence_head_ne {x : Char} (h : x ≠ btick) (xs : List Char) :
    isFence (x :: xs) = false := by
  match xs with
  | [] => rfl
  | [b] => rfl
  | b :: c :: t => simp [isFence, h]

lemma isFence_snd_ne {y : Char} (h : y ≠ btick) (x : Char) (xs : List Char) :
    isFence (x :: y :: xs) = false := by
  match xs with
  | [] => rfl
  | c :: t => simp [isFence, h]

lemma isFence_thd_ne {z : Char} (h : z ≠ btick) (x y : Char) (xs : List Char) :
    isFence (x :: y :: z :: xs) = false := by
  simp [isFence, h]

lemma isFence_true_iff {l : List Char} :
    isFence l = true ↔ ∃ t, l = btick :: btick :: btick :: t := by
  match l with
  | [] => simp [isFence]
  | [a] => simp [isFence]
  | [a, b] => simp [isFence]
  | a :: b :: c :: t =>
      simp only [isFence, Bool.and_eq_true, beq_iff_eq]
      constructor
      · rintro ⟨⟨rfl, rfl⟩, rfl⟩
        exact ⟨t, rfl⟩
      · rintro ⟨t', ht⟩
        injection ht with h1 ht
        injection ht with h2 ht
        injection ht with h3 ht
        exact ⟨⟨h1, h2⟩, h3⟩

lemma isFence_take3 (l : List Char) : isFence l = isFence (l.take 3) := by
  match l with
  | [] => rfl
  | [a] => rfl
  | [a, b] => rfl
  | a :: b :: c :: t => rfl

lemma isFence_length {l : List Char} (h : isFence l = true) : 3 ≤ l.length := by
  rcases isFence_true_iff.mp h with ⟨t, rfl⟩
  simp

lemma findFence_none_iff {l : List Char} :
    findFence l = none ↔ ∀ p, isFence (l.drop p) = false := by
  induction l with
  | nil => simp [findFence, isFence]
  | cons c rest ih =>
      by_cases h : isFence (c :: rest) = true
      · constructor
        · intro hn
          rw [findFence, if_pos h] at hn
          exact absurd hn (by simp)
        · intro hall
          have h0 := hall 0
          rw [List.drop_zero] at h0
          rw [h0] at h
          exact absurd h (by simp)
      · have h' : isFence (c :: rest) = false := by simpa using h
        rw [findFence, if_neg (by simp [h'])]
        rw [Option.map_eq_none']
        rw [ih]
        constructor
        · intro hall p
          cases p with
          | zero => simpa using h'
          | succ p => simpa using hall p
        · intro hall p
          have := hall (p + 1)
          simpa using this

lemma findFence_some_iff {l : List Char} {j : Nat} :
    findFence l = some j ↔
      isFence (l.drop j) = true ∧ ∀ p, p < j → isFence (l.drop p) = false := by
  induction l generalizing j with
  | nil => simp [findFence, isFence]
  | cons c rest ih =>
      by_cases h : isFence (c :: rest) = true
      · rw [findFence, if_pos h]
        constructor
        · intro hf
          have hj : j = 0 := by
            have := Option.some.inj hf
            omega
          subst hj
          exact ⟨by simpa using h, by intro p hp; omega⟩
        · rintro ⟨h1, h2⟩
          rcases Nat.eq_zero_or_pos j with rfl | hj
          · rfl
          · have := h2 0 hj
            rw [List.drop_zero] at this
            rw [this] at h
            exact absurd h (by simp)
      · have h' : isFence (c :: rest) = false := by simpa using h
        rw [findFence, if_neg (by simp [h'])]
        constructor
        · intro hf
          rcases Option.map_eq_some'.mp hf with ⟨j', hj', rfl⟩
          rcases ih.mp hj' with ⟨h1, h2⟩
          refine ⟨by simpa using h1, ?_⟩
          intro p hp
          cases p with
          | zero => simpa using h'
          | succ p => simpa using h2 p (by omega)
        · rintro ⟨h1, h2⟩
          cases j with
          | zero =>
              rw [List.drop_zero] at h1
              rw [h1] at h'
              exact absurd h' (by simp)
          | succ j =>
              have hr : findFence rest = some j := by
                refine ih.mpr ⟨by simpa using h1, ?_⟩
                intro p hp
                have := h2 (p + 1) (by omega)
                simpa using this
              simp [hr]

lemma findFence_some_length {l : List Char} {j : Nat} (h : findFence l = some j) :
    j + 3 ≤ l.length := by
  have h1 := (findFence_some_iff.mp h).1
  have h2 := isFence_length h1
  rw [List.length_drop] at h2
  omega

lemma take3_window {A : List Char} (X : List Char) {p : Nat} (h : p + 3 ≤ A.length) :
    ((A ++ X).drop p).take 3 = (A.drop p).take 3 := by
  rw [List.drop_append_eq_append_drop]
  rw [show p - A.length = 0 from by omega, List.drop_zero]
  rw [List.take_append_eq_append_take]
  rw [show 3 - (A.drop p).length = 0 from by rw [List.length_drop]; omega]
  rw [List.take_zero, List.append_nil]

lemma isFence_window {A : List Char} (X Y : List Char) {p : Nat} (h : p + 3 ≤ A.length) :
    isFence ((A ++ X).drop p) = isFence ((A ++ Y).drop p) := by
  rw [isFence_take3 ((A ++ X).drop p), isFence_take3 ((A ++ Y).drop p),
    take3_window X h, take3_window Y h]

lemma findFence_append_stable {A Y : List Char} {j : Nat} (X : List Char)
    (hA : A.length = j + 3) (h : findFence (A ++ Y) = some j) :
    findFence (A ++ X) = some j := by
  rcases findFence_some_iff.mp h with ⟨h1, h2⟩
  refine findFence_some_iff.mpr ⟨?_, ?_⟩
  · rw [isFence_window X Y (by omega)]
    exact h1
  · intro p hp
    rw [isFence_window X Y (by omega)]
    exact h2 p hp

lemma pcb_nil : pcb [] = [] := by
  simp [pcb]

lemma pcb_cons_no_fence {c : Char} {rest : List Char} (h : isFence (c :: rest) = false) :
    pcb (c :: rest) = c :: pcb rest := by
  simp [pcb, h]

lemma pcb_cons_fence_none {c : Char} {rest : List Char} (hf : isFence (c :: rest) = true)
    (hd : findFence (rest.drop 2) = none) :
    pcb (c :: rest) = c :: pcb rest := by
  simp [pcb, hf, hd]

lemma pcb_cons_fence_some {c : Char} {rest : List Char} {j : Nat}
    (hf : isFence (c :: rest) = true) (hd : findFence (rest.drop 2) = some j) :
    pcb (c :: rest) =
      elide ((c :: rest).take (j + 6)) ++ pcb ((c :: rest).drop (j + 6)) := by
  simp [pcb, hf, hd]

lemma pcb_tick_free_front :
    ∀ (P X : List Char), (∀ x ∈ P, x ≠ btick) → pcb (P ++ X) = P ++ pcb X := by
  intro P
  induction P with
  | nil => intro X _; simp
  | cons p P ih =>
      intro X h
      have hp : p ≠ btick := h p (by simp)
      rw [List.cons_append, pcb_cons_no_fence (isFence_head_ne hp _)]
      rw [ih X (fun x hx => h x (by simp [hx]))]
      simp

lemma pcb_id_of_no_late_fence :
    ∀ l : List Char, (∀ p, 3 ≤ p → isFence (l.drop p) = false) → pcb l = l := by
  intro l
  induction l with
  | nil => exact fun _ => pcb_nil
  | cons c rest ih =>
      intro h
      have hrest : ∀ p, 3 ≤ p → isFence (rest.drop p) = false := by
        intro p hp
        have hh := h (p + 1) (by omega)
        simpa using hh
      by_cases hf : isFence (c :: rest) = true
      · have hd : findFence (rest.drop 2) = none := by
          rw [findFence_none_iff]
          intro p
          have hh := h (p + 3) (by omega)
          rw [List.drop_drop]
          rw [show (c :: rest).drop (p + 3) = rest.drop (p + 2) from rfl] at hh
          rw [show 2 + p = p + 2 from by omega]
          exact hh
        rw [pcb_cons_fence_none hf hd, ih hrest]
      · have hf' : isFence (c :: rest) = false := by simpa using hf
        rw [pcb_cons_no_fence hf', ih hrest]

lemma pcb_match_front {l : List Char} {j : Nat} (hf : isFence l = true)
    (hd : findFence (l.drop 3) = some j) (X : List Char) :
    pcb (l.take (j + 6) ++ X) = elide (l.take (j + 6)) ++ pcb X := by
  have hlen3 : 3 ≤ l.length := isFence_length hf
  have hlen : j + 6 ≤ l.length := by
    have hh := findFence_some_length hd
    rw [List.length_drop] at hh
    omega
  have hml : (l.take (j + 6)).length = j + 6 := by
    rw [List.length_take]
    omega
  have htake3 : (l.take (j + 6) ++ X).take 3 = l.take 3 := by
    rw [List.take_append_eq_append_take]
    rw [show 3 - (l.take (j + 6)).length = 0 from by omega]
    rw [List.take_zero, List.append_nil, List.take_take]
    rw [show min 3 (j + 6) = 3 from by omega]
  have hfM : isFence (l.take (j + 6) ++ X) = true := by
    rw [isFence_take3, htake3, ← isFence_take3]
    exact hf
  have hA : ((l.take (j + 6)).drop 3).length = j + 3 := by
    rw [List.length_drop, hml]
    omega
  have hsplit : (l.take (j + 6) ++ X).drop 3 = (l.take (j + 6)).drop 3 ++ X := by
    rw [List.drop_append_eq_append_drop]
    rw [show 3 - (l.take (j + 6)).length = 0 from by omega, List.drop_zero]
  have horig : l.drop 3 = (l.take (j + 6)).drop 3 ++ l.drop (j + 6) := by
    rw [List.drop_take]
    rw [show l.drop (j + 6) = (l.drop 3).drop (j + 3) from by
      rw [List.drop_drop]
      congr 1
      omega]
    rw [show j + 6 - 3 = j + 3 from by omega]
    exact (List.take_append_drop (j + 3) (l.drop 3)).symm
  have hdM : findFence ((l.take (j + 6) ++ X).drop 3) = some j := by
    rw [hsplit]
    exact findFence_append_stable X hA (by rw [← horig]; exact hd)
  have htakeM : (l.take (j + 6) ++ X).take (j + 6) = l.take (j + 6) := by
    rw [List.take_append_eq_append_take]
    rw [show j + 6 - (l.take (j + 6)).length = 0 from by omega]
    rw [List.take_zero, List.append_nil, List.take_of_length_le (by omega)]
  have hdropM : (l.take (j + 6) ++ X).drop (j + 6) = X := by
    rw [List.drop_append_eq_append_drop]
    rw [List.drop_of_length_le (by omega)]
    rw [show j + 6 - (l.take (j + 6)).length = 0 from by omega, List.drop_zero,
      List.nil_append]
  obtain ⟨c, m', hm'⟩ : ∃ c m', l.take (j + 6) = c :: m' := by
    match hmm : l.take (j + 6) with
    | [] => rw [hmm] at hml; simp at hml
    | c :: m' => exact ⟨c, m', rfl⟩
  rw [hm'] at hfM hdM htakeM hdropM ⊢
  rw [List.cons_append] at hfM hdM htakeM hdropM ⊢
  rw [pcb_cons_fence_some hfM hdM]
  rw [htakeM, hdropM]

lemma placeholder_tick_free : ∀ x ∈ placeholder.data, x ≠ btick := by decide

lemma pcb_idem_aux : ∀ n : Nat, ∀ l : List Char, l.length = n → pcb (pcb l) = pcb l := by
  intro n
  induction n using Nat.strong_induction_on with
  | _ n IH =>
    intro l hn
    match l with
    | [] => rw [pcb_nil, pcb_nil]
    | c :: rest =>
      have hlen : rest.length + 1 = n := by simpa using hn
      have IHl : ∀ l' : List Char, l'.length < n → pcb (pcb l') = pcb l' := by
        intro l' hl'
        exact IH l'.length hl' l' rfl
      by_cases hf : isFence (c :: rest) = true
      · cases hd : findFence (rest.drop 2) with
        | none =>
            have hid : pcb (c :: rest) = c :: rest := by
              apply pcb_id_of_no_late_fence
              intro p hp
              have hnone := findFence_none_iff.mp hd
              have hdp : (c :: rest).drop p = (rest.drop 2).drop (p - 3) := by
                rw [List.drop_drop]
                rw [show (c :: rest).drop p = rest.drop (p - 1) from by
                  rw [show p = (p - 1) + 1 from by omega]
                  exact List.drop_succ_cons]
                congr 1
                omega
              rw [hdp]
              exact hnone (p - 3)
            rw [hid]
            exact hid
        | some j =>
            have hd' : findFence ((c :: rest).drop 3) = some j := hd
            have hlram : j + 3 ≤ ((c :: rest).drop 3).length := findFence_some_length hd'
            have hlen6 : j + 6 ≤ rest.length + 1 := by
              rw [List.length_drop] at hlram
              simp at hlram
              omega
            have hldrop : ((c :: rest).drop (j + 6)).length < n := by
              rw [List.length_drop]
              simp
              omega
            rw [pcb_cons_fence_some hf hd]
            by_cases hsz : 80 < ((c :: rest).take (j + 6)).length
            · rw [show elide ((c :: rest).take (j + 6)) = placeholder.data from by
                rw [elide, if_pos hsz]]
              rw [pcb_tick_free_front placeholder.data _ placeholder_tick_free]
              rw [IHl ((c :: rest).drop (j + 6)) hldrop]
            · have he : elide ((c :: rest).take (j + 6)) = (c :: rest).take (j + 6) := by
                rw [elide, if_neg hsz]
              rw [he]
              have hmp := pcb_match_front hf hd' (pcb ((c :: rest).drop (j + 6)))
              rw [hmp, he]
              rw [IHl ((c :: rest).drop (j + 6)) hldrop]
      · have hf' : isFence (c :: rest) = false := by simpa using hf
        rw [pcb_cons_no_fence hf']
        by_cases hc : c = btick
        · subst hc
          match rest with
          | [] =>
              rw [pcb_nil, pcb_cons_no_fence (show isFence [btick] = false from rfl),
                pcb_nil]
          | r0 :: rest' =>
              by_cases hr0 : r0 = btick
              · subst hr0
                match rest' with
                | [] =>
                    have h1 : pcb [btick] = [btick] := by
                      rw [pcb_cons_no_fence (show isFence [btick] = false from rfl),
                        pcb_nil]
                    rw [h1]
                    rw [pcb_cons_no_fence (show isFence [btick, btick] = false from rfl),
                      h1]
                | r1 :: rest'' =>
                    have hr1 : r1 ≠ btick := by
                      intro hr1
                      subst hr1
                      rw [show isFence (btick :: btick :: btick :: rest'') = true from by
                        simp [isFence]] at hf'
                      exact absurd hf' (by simp)
                    rw [pcb_cons_no_fence (isFence_snd_ne hr1 _ _),
                      pcb_cons_no_fence (isFence_head_ne hr1 _)]
                    rw [pcb_cons_no_fence (isFence_thd_ne hr1 _ _ _)]
                    rw [pcb_cons_no_fence (isFence_snd_ne hr1 _ _)]
                    rw [pcb_cons_no_fence (isFence_head_ne hr1 _)]
                    rw [IHl rest'' (by simp at hn; omega)]
              · rw [pcb_cons_no_fence (isFence_head_ne hr0 _)]
                rw [pcb_cons_no_fence (isFence_snd_ne hr0 _ _)]
                rw [pcb_cons_no_fence (isFence_head_ne hr0 _)]
                rw [IHl rest' (by simp at hn; omega)]
        · rw [pcb_cons_no_fence (isFence_head_ne hc _)]
          rw [IHl rest (by omega)]

lemma pcb_idem (l : List Char) : pcb (pcb l) = pcb l :=
  pcb_idem_aux l.length l rfl

lemma string_mk_data (s : String) : String.mk s.data = s := by
  obtain ⟨d⟩ := s
  rfl

lemma string_ne_empty_of_length_pos {s : String} (h : 0 < s.length) : s ≠ "" := by
  intro he
  subst he
  exact absurd h (by decide)

lemma join_foldl (l : List String) (a : String) :
    List.foldl (fun r s => r ++ s) a l = String.mk (a.data ++ (l.map String.data).flatten) := by
  induction l generalizing a with
  | nil => simp [string_mk_data]
  | cons s l ih => simp [ih, List.append_assoc]

lemma join_eq (l : List String) :
    String.join l = String.mk ((l.map String.data).flatten) := by
  have h := join_foldl l ""
  simpa [String.join] using h

/-- The fold of `chunk_markdown` inserts no separator and drops no text:
joining the emitted chunks and the final buffer recovers the joined
payloads. -/
lemma chunkLeaves_join (limit : Nat) :
    ∀ (leaves cs : List String) (cur : String),
      String.join ((leaves.foldl (chunkStep limit) (cs, cur)).1 ++
          [(leaves.foldl (chunkStep limit) (cs, cur)).2]) =
        String.join (cs ++ [cur]) ++ String.join leaves := by
  intro leaves
  induction leaves with
  | nil => intro cs cur; simp [join_eq]
  | cons t rest ih =>
      intro cs cur
      rw [List.foldl_cons]
      have h := ih (chunkStep limit (cs, cur) t).1 (chunkStep limit (cs, cur) t).2
      rw [h]
      unfold chunkStep
      by_cases hc : limit < cur.length + t.length
      · simp [hc, join_eq, String.ext_iff, List.append_assoc]
      · simp [hc, join_eq, String.ext_iff, List.append_assoc]

/-- When every leaf fits within the limit, every emitted chunk is built
from a non-empty buffer. -/
lemma chunkLeaves_nonempty (limit : Nat) :
    ∀ (leaves cs : List String) (cur : String),
      (∀ s ∈ leaves, s.length ≤ limit) →
      (∀ c ∈ cs, c ≠ "") → cur.length ≤ limit →
      ∀ c ∈ (leaves.foldl (chunkStep limit) (cs, cur)).1, c ≠ "" := by
  intro leaves
  induction leaves with
  | nil => intro cs cur _ hcs _ c hc; exact hcs c hc
  | cons t rest ih =>
      intro cs cur hle hcs hcur c hc
      rw [List.foldl_cons] at hc
      have ht : t.length ≤ limit := hle t (by simp)
      have hrest : ∀ s ∈ rest, s.length ≤ limit := fun s hs => hle s (by simp [hs])
      unfold chunkStep at hc
      by_cases hb : limit < cur.length + t.length
      · rw [if_pos hb] at hc
        refine ih (cs ++ [cur]) t hrest ?_ ht c hc
        intro d hd
        rcases List.mem_append.mp hd with hd | hd
        · exact hcs d hd
        · have hd' : d = cur := by simpa using hd
          subst hd'
          exact string_ne_empty_of_length_pos (by omega)
      · rw [if_neg hb] at hc
        exact ih cs (cur ++ t) hrest hcs (by simp; omega) c hc

/-- Every emitted chunk either fits within the limit or is a single
(oversized) leaf taken whole from the input. -/
lemma chunkLeaves_size (limit : Nat) (master : List String) :
    ∀ (leaves cs : List String) (cur : String),
      (∀ s ∈ leaves, s ∈ master) →
      (∀ c ∈ cs, c.length ≤ limit ∨ c ∈ master) →
      (cur.length ≤ limit ∨ cur ∈ master) →
      ∀ c ∈ (leaves.foldl (chunkStep limit) (cs, cur)).1,
        c.length ≤ limit ∨ c ∈ master := by
  intro leaves
  induction leaves with
  | nil => intro cs cur _ hcs _ c hc; exact hcs c hc
  | cons t rest ih =>
      intro cs cur hm hcs hcur c hc
      rw [List.foldl_cons] at hc
      have ht : t ∈ master := hm t (by simp)
      have hrest : ∀ s ∈ rest, s ∈ master := fun s hs => hm s (by simp [hs])
      unfold chunkStep at hc
      by_cases hb : limit < cur.length + t.length
      · rw [if_pos hb] at hc
        refine ih (cs ++ [cur]) t hrest ?_ (Or.inr ht) c hc
        intro d hd
        rcases List.mem_append.mp hd with hd | hd
        · exact hcs d hd
        · have hd' : d = cur := by simpa using hd
          subst hd'
          exact hcur
      · rw [if_neg hb] at hc
        exact ih cs (cur ++ t) hrest hcs (Or.inl (by simp; omega)) c hc

/-- C1: the spec requires the accumulator to emit any non-empty remaining
buffer as a final chunk, so a document with a single short leaf yields
exactly that leaf as its one chunk.  The code instead returns only the
first component of the fold and discards the buffer: a single-leaf
document below the limit yields no chunk at all. -/
theorem c1_final_buffer_dropped :
    chunk_markdown [Leaf.text "Hello"] = [] ∧
      chunk_markdown [Leaf.text "Hello"] ≠ ["Hello"] ∧
      "Hello".length < SECTION_CHAR_LIMIT := by
  refine ⟨by decide, by decide, by decide⟩

/-- C2 (counterexample): with limit 10 and leaves Hello, World, foo the
code does not produce the spec's output Hello, World-space-foo — neither
in the emitted chunks nor even counting the discarded buffer. -/
theorem c2_counterexample :
    (chunkLeaves 10 ["Hello", "World", "foo"]).1 ≠ ["Hello", "World foo"] ∧
      (chunkLeaves 10 ["Hello", "World", "foo"]).1 ++
          [(chunkLeaves 10 ["Hello", "World", "foo"]).2] ≠ ["Hello", "World foo"] := by
  refine ⟨by decide, by decide⟩

/-- C2 (amended): the accumulator appends each payload directly, with no
separator, and compares buffer length plus payload length against the
limit; joining chunks and buffer recovers the joined payloads exactly, and
with limit 10 and leaves Hello, World, foo the emitted output is exactly
HelloWorld, with foo left in the discarded buffer. -/
theorem c2_no_separator :
    (∀ (limit : Nat) (leaves : List String),
        String.join ((chunkLeaves limit leaves).1 ++ [(chunkLeaves limit leaves).2]) =
          String.join leaves) ∧
      (chunkLeaves 10 ["Hello", "World", "foo"]).1 = ["HelloWorld"] ∧
      (chunkLeaves 10 ["Hello", "World", "foo"]).2 = "foo" := by
  refine ⟨?_, by decide, by decide⟩
  intro limit leaves
  have h := chunkLeaves_join limit leaves [] ""
  simpa [chunkLeaves, join_eq] using h

set_option maxRecDepth 40000 in
/-- C5 (counterexample): a document whose single leaf is longer than the
limit makes the code emit the empty buffer as a chunk, so not every chunk
of the emitted ChunkSequence is non-empty. -/
theorem c5_counterexample :
    chunk_markdown [Leaf.text (String.mk (List.replicate 1501 'a'))] = [""] := by
  decide

/-- C5 (amended): the code pushes the buffer without testing that it is
non-empty, so an empty chunk is emitted exactly when a leaf longer than
the limit arrives on an empty buffer; whenever every leaf fits within the
limit, every emitted chunk is non-empty. -/
theorem c5_nonempty_when_leaves_fit (limit : Nat) (leaves : List String)
    (h : ∀ s ∈ leaves, s.length ≤ limit) :
    ∀ c ∈ (chunkLeaves limit leaves).1, c ≠ "" := by
  intro c hc
  exact chunkLeaves_nonempty limit leaves [] "" h (by simp) (by simp) c hc

/-- Witness for `c5_nonempty_when_leaves_fit` at limit 3 and leaves
ab, cd, ef, whose emitted chunks are ab and cd. -/
theorem c5_nonempty_when_leaves_fit_witness : ("ab" : String) ≠ "" :=
  c5_nonempty_when_leaves_fit 3 ["ab", "cd", "ef"] (by decide) "ab" (by decide)

/-- C6: for every limit and every leaf sequence, every emitted chunk
either has length at most the limit or is a single whole leaf of the
input whose own length exceeds the limit. -/
theorem c6_size_bound (limit : Nat) (_hL : 1 ≤ limit) (leaves : List String) :
    ∀ c ∈ (chunkLeaves limit leaves).1,
      c.length ≤ limit ∨ (c ∈ leaves ∧ limit < c.length) := by
  intro c hc
  have h := chunkLeaves_size limit leaves leaves [] "" (fun s hs => hs) (by simp)
    (Or.inl (by simp [String.length])) c hc
  by_cases hlen : c.length ≤ limit
  · exact Or.inl hlen
  · rcases h with h | h
    · exact Or.inl h
    · exact Or.inr ⟨h, by omega⟩

/-- Witness for `c6_size_bound` at limit 10: the oversized eleven-character
leaf is emitted whole as its own chunk. -/
theorem c6_size_bound_witness :
    ("aaaaaaaaaaa" : String).length ≤ 10 ∨
      ("aaaaaaaaaaa" ∈ ["aaaaaaaaaaa", "b"] ∧ 10 < ("aaaaaaaaaaa" : String).length) :=
  c6_size_bound 10 (by decide) ["aaaaaaaaaaa", "b"] "aaaaaaaaaaa" (by decide)

lemma lookup_insertPair (m : List (String × String)) (k v : String) :
    List.lookup k (insertPair m k v) = some v := by
  induction m with
  | nil => simp [insertPair, List.lookup]
  | cons p m ih =>
      by_cases hp : p.1 = k
      · simpa [insertPair, List.filter_cons, hp] using ih
      · have hne : (p.1 != k) = true := by simp [hp]
        have hkp : (k == p.1) = false := by simp [Ne.symm hp]
        simpa [insertPair, List.filter_cons, hne, List.lookup, hkp] using ih

lemma foldl_readRecordStep_none (hdrLen : Nat) (rows : List (List String)) :
    rows.foldl (readRecordStep hdrLen) none = none := by
  induction rows with
  | nil => rfl
  | cons r rest ih => simpa [readRecordStep] using ih

lemma readRecordStep_bad_fold (hdrLen : Nat) :
    ∀ (rows : List (List String)) (acc : Option (List (String × String))),
      (∃ r ∈ rows, r.length ≠ hdrLen) →
      rows.foldl (readRecordStep hdrLen) acc = none := by
  intro rows
  induction rows with
  | nil =>
      rintro acc ⟨r, hr, _⟩
      simp at hr
  | cons r rest ih =>
      rintro acc ⟨r', hr', hne⟩
      rcases List.mem_cons.mp hr' with rfl | hmem
      · rw [List.foldl_cons]
        have hstep : readRecordStep hdrLen acc r' = none := by
          match acc with
          | none => rfl
          | some m => simp [readRecordStep, hne]
        rw [hstep, foldl_readRecordStep_none]
      · rw [List.foldl_cons]
        exact ih _ ⟨r', hmem, hne⟩

lemma readRecordStep_ok {hdrLen : Nat} (m : List (String × String)) {r : List String}
    (hr : r.length = hdrLen) :
    readRecordStep hdrLen (some m) r =
      some ((fun m r => match r with | [a, b] => insertPair m a b | _ => m) m r) := by
  simp only [readRecordStep]
  rw [if_pos hr]
  match r with
  | [] => rfl
  | [a] => rfl
  | [a, b] => rfl
  | a :: b :: c :: t => rfl

lemma readRecordStep_good_fold (hdrLen : Nat) :
    ∀ (rows : List (List String)) (m : List (String × String)),
      (∀ r ∈ rows, r.length = hdrLen) →
      rows.foldl (readRecordStep hdrLen) (some m) =
        some (rows.foldl
          (fun m r => match r with | [a, b] => insertPair m a b | _ => m) m) := by
  intro rows
  induction rows with
  | nil => intro m _; rfl
  | cons r rest ih =>
      intro m hall
      rw [List.foldl_cons, List.foldl_cons]
      have hr : r.length = hdrLen := hall r (by simp)
      rw [readRecordStep_ok m hr]
      exact ih _ (fun r' h => hall r' (by simp [h]))

/-- C3 (counterexample): on the text a with the table mapping a to b and
b to c, sequential cascading replacement produces c in one iteration order
and b in the other, while the spec's deterministic multi-pattern
replacement produces b; the applier does not return the multi-pattern
result and its result depends on the iteration order. -/
theorem c3_counterexample :
    apply_substitutions "a" [("a", "b"), ("b", "c")] = "c" ∧
      apply_substitutions "a" [("b", "c"), ("a", "b")] = "b" ∧
      specMultiPatternReplace [("a", "b"), ("b", "c")] "a" = "b" ∧
      apply_substitutions "a" [("a", "b"), ("b", "c")] ≠
        specMultiPatternReplace [("a", "b"), ("b", "c")] "a" := by
  have h1 : apply_substitutions "a" [("a", "b"), ("b", "c")] = "c" := by
    simp [apply_substitutions, replaceAll, goRep]
  have h2 : apply_substitutions "a" [("b", "c"), ("a", "b")] = "b" := by
    simp [apply_substitutions, replaceAll, goRep]
  have h3 : specMultiPatternReplace [("a", "b"), ("b", "c")] "a" = "b" := by decide
  exact ⟨h1, h2, h3, by rw [h1, h3]; decide⟩

/-- C3 (amended): the applier performs each rule's whole-string replace
sequentially in the table's iteration order, so later rules rescan the
replacements of earlier ones and the result can depend on the iteration
order: the same two-rule table applied in its two orders gives different
results. -/
theorem c3_order_dependent :
    ([("a", "b"), ("b", "c")] : List (String × String)).Perm [("b", "c"), ("a", "b")] ∧
      apply_substitutions "a" [("a", "b"), ("b", "c")] ≠
        apply_substitutions "a" [("b", "c"), ("a", "b")] := by
  constructor
  · exact List.Perm.swap _ _ _
  · have h1 : apply_substitutions "a" [("a", "b"), ("b", "c")] = "c" := by
      simp [apply_substitutions, replaceAll, goRep]
    have h2 : apply_substitutions "a" [("b", "c"), ("a", "b")] = "b" := by
      simp [apply_substitutions, replaceAll, goRep]
    rw [h1, h2]
    decide

/-- C7 (counterexample): a two-field row with an empty from key passes the
field-count check and enters the table, and applying it inserts the
replacement at every character boundary — it is neither rejected nor a
no-op. -/
theorem c7_counterexample :
    read_substitutions [["from", "to"], ["", "x"]] = [("", "x")] ∧
      apply_substitutions "ab" [("", "x")] = "xaxbx" := by
  constructor
  · decide
  · decide

/-- C7 (amended): an empty from key is accepted into the table like any
other two-field row and is applied with the replace-everywhere semantics
of Rust replace: the to string is inserted before, between and after
every character of the text. -/
theorem c7_empty_from_replace_everywhere :
    (∀ t : String, apply_substitutions "ab" [("", t)] = t ++ "a" ++ t ++ "b" ++ t) ∧
      read_substitutions [["from", "to"], ["", "x"]] = [("", "x")] := by
  refine ⟨?_, by decide⟩
  intro t
  show String.mk (replaceAll [] t.data "ab".data) = _
  simp [replaceAll, String.ext_iff]

/-- C8 (counterexample): under a two-field header, a three-field row is
not skipped: the default non-flexible csv reader surfaces it as an error,
`read_substitutions` propagates it, and the run aborts producing no table
at all — not the table of the remaining well-formed rows. -/
theorem c8_counterexample :
    read_substitutions_strict [["h1", "h2"], ["a", "b", "c"], ["k", "v"]] = none ∧
      read_substitutions_strict [["h1", "h2"], ["a", "b", "c"], ["k", "v"]] ≠
        some [("k", "v")] := by
  refine ⟨by decide, by decide⟩

/-- C8 (amended): a row whose field count differs from the header's is
fatal: the reader's UnequalLengths error is propagated and the run aborts
with no table.  Only a row that carries the header's field count but not
exactly two fields is skipped, which can happen only under a header that
itself does not have two fields.  On a stream the reader accepts — every
row matching the header's field count — the run succeeds and the table is
the two-field fold over the delivered records. -/
theorem c8_wrong_field_count_fatal :
    (∀ (hdr : List String) (rows : List (List String)),
        (∃ r ∈ rows, r.length ≠ hdr.length) →
        read_substitutions_strict (hdr :: rows) = none) ∧
      (∀ (hdr : List String) (rows : List (List String)),
        (∀ r ∈ rows, r.length = hdr.length) →
        read_substitutions_strict (hdr :: rows) =
          some (read_substitutions (hdr :: rows))) ∧
      read_substitutions_strict [["h1", "h2", "h3"], ["a", "b", "c"]] = some [] := by
  refine ⟨?_, ?_, by decide⟩
  · intro hdr rows hbad
    exact readRecordStep_bad_fold hdr.length rows (some []) hbad
  · intro hdr rows hall
    exact readRecordStep_good_fold hdr.length rows [] hall

/-- Witness for `c8_wrong_field_count_fatal`: a three-field row under a
two-field header aborts the run, while an all-two-field stream succeeds
and yields its table. -/
theorem c8_wrong_field_count_fatal_witness :
    read_substitutions_strict [["h1", "h2"], ["a", "b", "c"], ["k", "v"]] = none ∧
      read_substitutions_strict [["h1", "h2"], ["k", "v"]] = some [("k", "v")] :=
  ⟨c8_wrong_field_count_fatal.1 ["h1", "h2"] [["a", "b", "c"], ["k", "v"]]
      ⟨["a", "b", "c"], by decide, by decide⟩,
    (c8_wrong_field_count_fatal.2.1 ["h1", "h2"] [["k", "v"]] (by decide)).trans
      (by decide)⟩

/-- C10: the first record of the substitution file is consumed as the
header and never enters the table — a file whose only line is a real pair
yields the empty table — and when two remaining rows share a from key the
later row's to value overwrites the earlier one. -/
theorem c10_header_consumed_and_later_rows_override :
    (∀ (h₁ h₂ : List String) (rows : List (List String)),
        read_substitutions (h₁ :: rows) = read_substitutions (h₂ :: rows)) ∧
      read_substitutions [["foo", "bar"]] = [] ∧
      (∀ (hdr : List String) (rest : List (List String)) (k v₁ v₂ : String),
        List.lookup k (read_substitutions (hdr :: (rest ++ [[k, v₁], [k, v₂]]))) = some v₂) := by
  refine ⟨fun h₁ h₂ rows => rfl, by decide, ?_⟩
  intro hdr rest k v₁ v₂
  show List.lookup k ((rest ++ [[k, v₁], [k, v₂]]).foldl _ []) = some v₂
  rw [List.foldl_append]
  exact lookup_insertPair _ k v₂

lemma pcb_id_of_tick_free (l : List Char) (h : ∀ x ∈ l, x ≠ btick) : pcb l = l := by
  apply pcb_id_of_no_late_fence
  intro p _
  match hd : l.drop p with
  | [] => rfl
  | c :: t =>
      have hc : c ∈ l := by
        have hm : c ∈ l.drop p := by rw [hd]; simp
        exact List.drop_subset _ _ hm
      exact isFence_head_ne (h c hc) t

/-- C4: the spec says a CodeBlock literal longer than 80 characters is
replaced by the placeholder before chunking.  The code applies a regex
that only matches three-backtick-fenced spans inside the literal, which
the markdown parser has already stripped, so a plain 81-character literal
passes through unchanged instead of being elided. -/
theorem c4_oversized_literal_not_elided :
    process_code_blocks (String.mk (List.replicate 81 'a')) =
        String.mk (List.replicate 81 'a') ∧
      80 < (String.mk (List.replicate 81 'a')).length ∧
      String.mk (List.replicate 81 'a') ≠ placeholder := by
  refine ⟨?_, ?_, by decide⟩
  · show String.mk (pcb (String.mk (List.replicate 81 'a')).data) = _
    rw [show (String.mk (List.replicate 81 'a')).data = List.replicate 81 'a' from rfl]
    rw [pcb_id_of_tick_free _ (by
      intro x hx
      rw [List.eq_of_mem_replicate hx]
      decide)]
  · rw [String.length_eq_list_length, List.length_replicate]
    omega

/-- C9: code-block elision is idempotent: applying `process_code_blocks`
twice to any payload yields the same result as applying it once.  (In the
code this holds because kept matches rescan to themselves, the placeholder
contains no backticks, and unmatched backtick runs still lack a closing
fence after replacement.) -/
theorem c9_elision_idempotent (s : String) :
    process_code_blocks (process_code_blocks s) = process_code_blocks s := by
  show String.mk (pcb (String.mk (pcb s.data)).data) = String.mk (pcb s.data)
  rw [show (String.mk (pcb s.data)).data = pcb s.data from rfl]
  rw [pcb_idem]
